import Mathlib

/-!
A verification development for the spectral/representation-theoretic core of the
LieStationaryKernels repository.

The embedding conventions:

* Python integers become `ℤ` (or `ℕ` for indices and loop counters).
* Floating-point values become `ℚ` with exact arithmetic: every float that the
  relevant code paths produce (Laplace–Beltrami eigenvalues, Weyl-dimension
  intermediate values, tolerance comparisons) is an exact rational of small
  denominator, so `ℚ` gives the intended real-number semantics.
  `np.linalg.norm(v) ** 2` is embedded directly as the sum of squares `normSq`.
* A representation signature (a Python tuple of integers) becomes `List ℤ`.
* `heapq.nsmallest(order, xs, key)` is embedded by its documented semantics,
  `sorted(xs, key=key)[:order]` with a stable sort: decorate each element with
  its generation index, sort by the lexicographic (key, index) order, take
  `order`, forget the indices.
* Code that raises a Python exception becomes `Except PyError`; the branch that
  each error comes from is kept explicit.
* Randomness (`torch.randn` draws) enters as an explicit argument, together
  with the derived quantities (`torch.norm` row norms) that the code computes
  from the draw; the relation between the two is stated as a hypothesis.
-/

/-! ### Python errors -/

/-- The Python exceptions the embedded code paths can raise.  `keyError` keeps
the missing key and the group name that the message of
`SUCharacterDenominatorFree.__init__` interpolates. -/
inductive PyError where
  | valueError (msg : String)
  | typeError (msg : String)
  | keyError (missing_key group_name : String)
deriving DecidableEq

/-! ### Generic list helpers -/

/-- Sum of squares of a vector; the exact value of `np.linalg.norm(v) ** 2`. -/
def normSq (v : List ℚ) : ℚ := (v.map (fun x => x * x)).sum

/-- Pair each element of a list with its position, starting from `i`.  Used to
record the generation order that `heapq.nsmallest` breaks ties by. -/
def withIdx {α : Type} : ℕ → List α → List (ℕ × α)
  | _, [] => []
  | i, a :: l => (i, a) :: withIdx (i + 1) l

/-- The stable comparison `heapq.nsmallest` effectively sorts by: first the key
(the LB eigenvalue), then the generation index. -/
def heapqLe {α : Type} (eig : α → ℚ) (p q : ℕ × α) : Prop :=
  eig p.2 < eig q.2 ∨ (eig p.2 = eig q.2 ∧ p.1 ≤ q.1)

instance {α : Type} (eig : α → ℚ) : DecidableRel (heapqLe eig) := fun p q => by
  unfold heapqLe; infer_instance

instance {α : Type} (eig : α → ℚ) : IsTotal (ℕ × α) (heapqLe eig) := ⟨by
  intro a b
  rcases lt_trichotomy (eig a.2) (eig b.2) with h | h | h
  · exact Or.inl (Or.inl h)
  · rcases Nat.le_total a.1 b.1 with h' | h'
    · exact Or.inl (Or.inr ⟨h, h'⟩)
    · exact Or.inr (Or.inr ⟨h.symm, h'⟩)
  · exact Or.inr (Or.inl h)⟩

instance {α : Type} (eig : α → ℚ) : IsTrans (ℕ × α) (heapqLe eig) := ⟨by
  intro a b c hab hbc
  rcases hab with h1 | ⟨e1, i1⟩
  · rcases hbc with h2 | ⟨e2, i2⟩
    · exact Or.inl (h1.trans h2)
    · exact Or.inl (e2 ▸ h1)
  · rcases hbc with h2 | ⟨e2, i2⟩
    · exact Or.inl (e1 ▸ h2)
    · exact Or.inr ⟨e1.trans e2, i1.trans i2⟩⟩

/-- The strict version of `heapqLe`, used to state what the selection
guarantees between elements with distinct generation indices. -/
def strictKey {α : Type} (eig : α → ℚ) (a b : ℕ × α) : Prop :=
  eig a.2 < eig b.2 ∨ (eig a.2 = eig b.2 ∧ a.1 < b.1)

/-- Embedding of `heapq.nsmallest(k, l, key=eig)` (CPython documents it as
equivalent to `sorted(l, key=eig)[:k]`, and `sorted` is stable): decorate with
the generation index, sort lexicographically by (key, index), keep the first
`k`, drop the decoration. -/
def nsmallest {α : Type} (k : ℕ) (eig : α → ℚ) (l : List α) : List α :=
  ((List.insertionSort (heapqLe eig) (withIdx 0 l)).take k).map Prod.snd

/-! ### Fixed-length partitions (SO signature enumeration)

`fixed_length_partitions` lives in `src/utils.py`, which is not among the
provided source files; only its caller `SO.generate_signatures` is. -/

/-- Modelled from the spec: `fixed_length_partitions` (imported by
`src/spaces/so.py` from the absent `src/utils.py`); the spec says the SO
enumeration "generate[s] all fixed-length partitions of each sum via a standard
partition algorithm".  `partsMax k maxv s` lists every nonincreasing list of
exactly `k` parts, each part in `[1, maxv]`, with sum `s`; parts are chosen
with the leading (largest) part decreasing. -/
def partsMax : ℕ → ℕ → ℕ → List (List ℕ)
  | 0, _, s => if s = 0 then [[]] else []
  | k + 1, maxv, s =>
    (List.range maxv).flatMap (fun t =>
      if maxv - t ≤ s then
        (partsMax k (maxv - t) (s - (maxv - t))).map (fun p => (maxv - t) :: p)
      else [])

/-- Modelled from the spec: all partitions of `s` into exactly `k` positive
parts, in nonincreasing order (see `partsMax`). -/
def fixed_length_partitions (s k : ℕ) : List (List ℕ) := partsMax k s s

/-- Number of nonzero entries of a list of naturals (used to recover the
partition length from a padded signature). -/
def nonzeroCount (l : List ℕ) : ℕ := l.countP (fun a => decide (0 < a))

/-! ### SO(n) -/

/-- `SO.__init__`: `rho = arange(rank-1, -1, -1)`, plus `0.5` in every entry
when `n` is odd (the half-sum of positive roots). -/
def SO.rho (n : ℕ) : List ℚ :=
  (List.range (n / 2)).map (fun k : ℕ =>
    ((n / 2 : ℕ) : ℚ) - 1 - (k : ℚ) + if n % 2 = 0 then 0 else 1 / 2)

/-- Negate the last entry of a signature (`signature[-1] = -signature[-1]`). -/
def negLast (l : List ℤ) : List ℤ := l.dropLast ++ [-(l.getLast?.getD 0)]

/-- Zero-pad a partition of length `i` to a signature of length `rank`
(`signature.extend([0] * (rank - i))`). -/
def soPad (rank i : ℕ) (p : List ℕ) : List ℤ :=
  p.map (fun a : ℕ => (a : ℤ)) ++ List.replicate (rank - i) 0

/-- The one or two signatures `SO.generate_signatures` appends for one
partition `p`: the padded signature, and additionally its last-entry negation
when `n` is even and the last entry is nonzero. -/
def soInner (n rank i : ℕ) (p : List ℕ) : List (List ℤ) :=
  if n % 2 = 0 ∧ (soPad rank i p).getLast?.getD 0 ≠ 0 then
    [soPad rank i p, negLast (soPad rank i p)]
  else [soPad rank i p]

/-- `SO.generate_signatures`: iterate partition sums `0 ≤ s < bound` (where
`bound = order` for `n = 3` and `20` otherwise), partition lengths
`0 ≤ i ≤ rank`, all partitions of `s` into `i` parts, pad to length `rank`, and
apply the even-`n` sign rule. -/
def SO.generate_signatures (n order : ℕ) : List (List ℤ) :=
  (List.range (if n = 3 then order else 20)).flatMap (fun s =>
    (List.range (n / 2 + 1)).flatMap (fun i =>
      (fixed_length_partitions s i).flatMap (soInner n (n / 2) i)))

/-- `SOLBEigenspace.compute_lb_eigenvalue`:
`norm(rho + signature)**2 - norm(rho)**2`, exactly. -/
def SOLBEigenspace.compute_lb_eigenvalue (n : ℕ) (signature : List ℤ) : ℚ :=
  normSq (List.zipWith (fun a b => a + b) (SO.rho n) (signature.map (fun a : ℤ => (a : ℚ)))) -
    normSq (SO.rho n)

/-- Truncation toward zero, the effect of Python `int()` on an exact value. -/
def intTrunc (q : ℚ) : ℤ := Int.tdiv q.num q.den

/-- The pair list `itertools.combinations(range(rank), 2)`. -/
def rankPairs (rank : ℕ) : List (ℕ × ℕ) :=
  ((List.range rank).flatMap (fun i => (List.range rank).map (fun j => (i, j)))).filter
    (fun p => p.1 < p.2)

/-- The `qs` values of the odd-`n` branch of `SOLBEigenspace.compute_dimension`:
`pk + rank - k - 1/2`. -/
def soOddQ (n : ℕ) (signature : List ℤ) (k : ℕ) : ℚ :=
  (signature.getD k 0 : ℚ) + ((n / 2 : ℕ) : ℚ) - k - 1 / 2

/-- The `qs` values of the even-`n` branch of `SOLBEigenspace.compute_dimension`:
`pk + rank - k - 1` for `k < rank - 1`, and `abs(pk)` for the last `k`. -/
def soEvenQ (n : ℕ) (signature : List ℤ) (k : ℕ) : ℚ :=
  if k ≠ n / 2 - 1 then (signature.getD k 0 : ℚ) + ((n / 2 : ℕ) : ℚ) - k - 1
  else |(signature.getD k 0 : ℚ)|

/-- `SOLBEigenspace.compute_dimension` (Weyl dimension formula, odd/even
branches as in the source).  `int(round(x))` becomes `round`; on the exact
values the formula produces (integers) the Python half-to-even rounding and
`round` agree.  The even branch also applies the inner `int(...)` truncation
the source performs. -/
def SOLBEigenspace.compute_dimension (n : ℕ) (signature : List ℤ) : ℤ :=
  if n % 2 = 1 then
    round
      (((List.range (n / 2)).map (fun k =>
          2 * soOddQ n signature k / ((Nat.factorial (2 * k + 1) : ℕ) : ℚ))).prod *
        ((rankPairs (n / 2)).map (fun pr =>
          (soOddQ n signature pr.1 - soOddQ n signature pr.2) *
            (soOddQ n signature pr.1 + soOddQ n signature pr.2))).prod)
  else
    round
      ((intTrunc
        (((List.range (n / 2 - 1)).map (fun k' =>
            2 / ((Nat.factorial (2 * (k' + 1)) : ℕ) : ℚ))).prod *
          ((rankPairs (n / 2)).map (fun pr =>
            (soEvenQ n signature pr.1 - soEvenQ n signature pr.2) *
              (soEvenQ n signature pr.1 + soEvenQ n signature pr.2))).prod) : ℚ))

/-! ### SU(n) -/

/-- `SU.__init__`: `rho = arange(n-1, -n, -2) * 0.5`. -/
def SU.rho (n : ℕ) : List ℚ :=
  (List.range n).map (fun k : ℕ => ((n : ℚ) - 1 - 2 * (k : ℚ)) / 2)

/-- Embedding of `itertools.combinations_with_replacement(xs, r)`: every
multiset of size `r` from `xs`, as the tuple with nondecreasing positions,
enumerated in lexicographic position order.  (The source passes a decreasing
pool, so the emitted tuples are nonincreasing in value.) -/
def combinations_with_replacement {α : Type} : ℕ → List α → List (List α)
  | 0, _ => [[]]
  | r + 1, xs =>
    xs.tails.flatMap (fun suf =>
      match suf with
      | [] => []
      | x :: rest => (combinations_with_replacement r (x :: rest)).map (fun t => x :: t))

/-- Lexicographic comparison of integer tuples, the order Python `list.sort()`
uses on tuples (a proper prefix compares as smaller). -/
def tupleLe : List ℤ → List ℤ → Bool
  | [], _ => true
  | _ :: _, [] => false
  | a :: l, b :: m => if a < b then true else if a = b then tupleLe l m else false

instance : DecidableRel (fun p q : List ℤ => tupleLe p q = true) :=
  fun p q => inferInstanceAs (Decidable (tupleLe p q = true))

/-- `SU.generate_signatures`: tuples of length `rank = n - 1` over
`range(sign_vals_lim, -1, -1)` via combinations-with-replacement, a trailing
`0` appended, then `signatures.sort()` (a sort by the lexicographic tuple
order; the elements are pairwise distinct, so any correct sort gives this
list). -/
def SU.generate_signatures (n order : ℕ) : List (List ℤ) :=
  List.insertionSort (fun p q => tupleLe p q = true)
    (((combinations_with_replacement (n - 1)
        ((List.range ((if n = 1 then order else if n = 2 then 10 else 5) + 1)).map
          (fun t : ℕ =>
            ((if n = 1 then order else if n = 2 then 10 else 5 : ℕ) : ℤ) - (t : ℤ)))).map
      (fun sgn => sgn ++ [(0 : ℤ)])))

/-- `SULBEigenspace.compute_lb_eigenvalue`: the signature is first recentred
(`sgn -= np.mean(sgn)`, "transform the signature into the same basis as rho"),
then `norm(rho + sgn)**2 - norm(rho)**2`. -/
def SULBEigenspace.compute_lb_eigenvalue (n : ℕ) (signature : List ℤ) : ℚ :=
  normSq (List.zipWith (fun a b => a + b) (SU.rho n)
      ((signature.map (fun a : ℤ => (a : ℚ))).map
        (fun a => a - (signature.map (fun a : ℤ => (a : ℚ))).sum / (signature.length : ℚ)))) -
    normSq (SU.rho n)

/-- `SULBEigenspace.compute_dimension` (Weyl dimension formula for SU):
`prod_{i=1}^{n-1} [ prod_{j=i+1}^{n} (sig[i-1] - sig[j-1] + j - i) ] / (n-i)!`,
then `int(round(...))`. -/
def SULBEigenspace.compute_dimension (n : ℕ) (signature : List ℤ) : ℤ :=
  round
    (((List.range (n - 1)).map (fun i0 =>
      ((List.range (n - (i0 + 1))).map (fun j0 =>
        ((signature.getD i0 0 - signature.getD (i0 + 1 + j0) 0 : ℤ) : ℚ) +
          ((j0 + 1 : ℕ) : ℚ))).prod /
        ((Nat.factorial (n - (i0 + 1)) : ℕ) : ℚ))).prod)

/-- The same computation as `SULBEigenspace.compute_dimension`, but recording
that for `n ≤ 1` the source raises: the outer `reduce` runs over the empty
`range(1, n)` with no initial element (`TypeError`). -/
def SULBEigenspace.compute_dimension_checked (n : ℕ) (signature : List ℤ) : Except PyError ℤ :=
  if n ≤ 1 then .error (.typeError "reduce() of empty iterable with no initial value")
  else .ok (SULBEigenspace.compute_dimension n signature)

/-! ### The compact-group constructor (`LieGroup.__init__`) -/

/-- The two compact Lie group families of the repository. -/
inductive CompactGroup where
  | so (n : ℕ)
  | su (n : ℕ)

/-- Dispatch of `generate_signatures` per family. -/
def CompactGroup.generate_signatures : CompactGroup → ℕ → List (List ℤ)
  | .so n, order => SO.generate_signatures n order
  | .su n, order => SU.generate_signatures n order

/-- Dispatch of `compute_lb_eigenvalue` per family. -/
def CompactGroup.lb_eigenvalue : CompactGroup → List ℤ → ℚ
  | .so n, signature => SOLBEigenspace.compute_lb_eigenvalue n signature
  | .su n, signature => SULBEigenspace.compute_lb_eigenvalue n signature

/-- `LieGroup.__init__` (`src/space.py`): build an eigenspace per generated
signature and keep `heapq.nsmallest(order, ..., key=lambda eig: eig.lb_eigenvalue)`.
An eigenspace is identified by its signature; its dimension and eigenvalue are
the pure functions of it embedded above. -/
def CompactGroup.lb_eigenspaces (g : CompactGroup) (order : ℕ) : List (List ℤ) :=
  nsmallest order g.lb_eigenvalue (g.generate_signatures order)

/-- `SO.__init__`: dimensions `n ≤ 2` are rejected with a `ValueError` before
anything else runs; otherwise the eigenspace list is built. -/
def SO.init (n order : ℕ) : Except PyError (List (List ℤ)) :=
  if n ≤ 2 then .error (.valueError "Dimensions 1, 2 are not supported")
  else .ok (CompactGroup.lb_eigenspaces (.so n) order)

/-- `SU.__init__`: no explicit validation.  For `n = 0` the rank is `-1` and
`combinations_with_replacement` raises `ValueError`; otherwise every generated
signature eagerly computes its dimension (which raises for `n = 1`, see
`SULBEigenspace.compute_dimension_checked`) and the `order` smallest
eigenvalues are kept. -/
def SU.init (n order : ℕ) : Except PyError (List (List ℤ)) :=
  if n = 0 then .error (.valueError "r must be non-negative")
  else
    ((SU.generate_signatures n order).mapM (fun signature =>
      (SULBEigenspace.compute_dimension_checked n signature).map (fun _ => signature))).map
      (fun sigs => nsmallest order (SULBEigenspace.compute_lb_eigenvalue n) sigs)

/-! ### The spec-side eigenvalue formula (claim C4) -/

/-- The formula as the spec states it: `‖ρ + signature‖² − ‖ρ‖²`, with the
signature used as-is (no change of basis). -/
def specLbFormula (rho sgn : List ℚ) : ℚ :=
  normSq (List.zipWith (fun a b => a + b) rho sgn) - normSq rho

/-- Recentre a vector by subtracting its mean (the `sgn -= np.mean(sgn)` step
of the SU eigenvalue computation). -/
def centered (v : List ℚ) : List ℚ := v.map (fun a => a - v.sum / (v.length : ℚ))

/-! ### Characters: the identity special case (claim C2) -/

/-- The elementwise test of `torch.isclose(a, b, atol=1e-5)`; `rtol` keeps the
default `1e-5`. -/
def torchIsClose (atol rtol a b : ℚ) : Prop := |a - b| ≤ atol + rtol * |b|

/-- The identity matrix `torch.eye(d)` as a function matrix. -/
def eye (d : ℕ) : Fin d → Fin d → ℚ := fun i j => if i = j then 1 else 0

/-- `SO.close_to_id` / `SU.close_to_id`: the flattened matrix is compared
entrywise against the flattened identity with `torch.isclose(..., atol=1e-5)`,
and all entries must pass. -/
def close_to_id {d : ℕ} (x : Fin d → Fin d → ℚ) : Prop :=
  ∀ i j, torchIsClose (1 / 100000) (1 / 100000) (x i j) (eye d i j)

instance {d : ℕ} (x : Fin d → Fin d → ℚ) : Decidable (close_to_id x) := by
  unfold close_to_id torchIsClose; infer_instance

/-- One entry of `torch.bmm`: matrix product. -/
def matMul {d : ℕ} (a b : Fin d → Fin d → ℚ) : Fin d → Fin d → ℚ :=
  fun i j => ∑ k, a i k * b k j

/-- `SO.inv`: transpose of a group element. -/
def SO.inv {d : ℕ} (x : Fin d → Fin d → ℚ) : Fin d → Fin d → ℚ := fun i j => x j i

/-- `LieGroupCharacter.forward` (`src/space.py`), per entry of the `[n, m]`
result: form `x·y⁻¹`, evaluate `dimension * chi(x·y⁻¹)`, and replace the value
by `dimension ** 2` where the closeness test fires.  Matrix entries are
modelled in `ℚ` (the replacement logic is independent of the scalar field);
`chi` is the abstract character method of the concrete subclass, and `inv` the
manifold's group inverse.  Modelled from the spec: the source calls
`self.close_to_eye`, whose binding is not among the provided files; the spec
describes the test as the absolute-tolerance comparison of the flattened
matrix against the identity, which is exactly the `close_to_id` of
`src/spaces/so.py` / `src/spaces/su.py` embedded above, so that is what is
bound here. -/
def LieGroupCharacter.forward {n m d : ℕ} (dimension : ℤ)
    (chi : (Fin d → Fin d → ℚ) → ℚ)
    (inv : (Fin d → Fin d → ℚ) → (Fin d → Fin d → ℚ))
    (x y : Fin n → Fin m → (Fin d → Fin d → ℚ)) : Fin n → Fin m → ℚ :=
  fun i j =>
    if close_to_id (matMul (x i j) (inv (y i j))) then ((dimension : ℚ)) ^ 2
    else (dimension : ℚ) * chi (matMul (x i j) (inv (y i j)))

/-! ### The persisted character cache (claims C5 and C9) -/

/-- A character's denominator-free data: `(coefficients, monomials)`. -/
abbrev CharFormula := List ℤ × List (List ℤ)

/-- A JSON-object level of the cache, as an association list in insertion
order (Python dicts preserve it). -/
def alookup {α : Type} (key : String) : List (String × α) → Option α
  | [] => none
  | (k, v) :: rest => if k = key then some v else alookup key rest

/-- The whole persisted store: group name → signature string → formula. -/
abbrev CharacterStore := List (String × List (String × CharFormula))

/-- `SUCharacterDenominatorFree.__init__` with `precomputed=True`: look the
`(group, signature)` pair up in the loaded cache and fail with the `KeyError`
(carrying the missing key and the group name that the re-raised message
interpolates) when either level misses; no recomputation is attempted. -/
def SUCharacterDenominatorFree.init (character_formulas : CharacterStore)
    (n : ℕ) (signature_key : String) : Except PyError CharFormula :=
  match alookup ("SU(" ++ toString n ++ ")") character_formulas with
  | none => .error (.keyError ("SU(" ++ toString n ++ ")") ("SU(" ++ toString n ++ ")"))
  | some m =>
    match alookup signature_key m with
    | none => .error (.keyError signature_key ("SU(" ++ toString n ++ ")"))
    | some cm => .ok cm

/-- Where the numeric path of `SOCharacterDenominatorFree.chi` gets its
polynomial from. -/
inductive SOChiFormulaSource where
  | storedFormula
  | recomputedInProcess
deriving DecidableEq

/-- `SOCharacterDenominatorFree.__init__` sets `_character_formula_computed = False`
and reads no cache at all. -/
def SOCharacterDenominatorFree.init_formula_computed : Bool := false

/-- `SOCharacterDenominatorFree.chi` (`src/spaces/so.py`): when the formula is
not yet computed, call `_compute_character_formula()` (the in-process symbolic
derivation) and then evaluate it; no error is raised and no persisted cache is
consulted. -/
def SOCharacterDenominatorFree.chiFormulaSource
    (character_formula_computed : Bool) : SOChiFormulaSource :=
  if character_formula_computed then .storedFormula else .recomputedInProcess

/-- Replace (or append) the binding of one group in the store, the effect of
`characters[group_name] = m`. -/
def updateGroup (group_name : String) (m : List (String × CharFormula)) :
    CharacterStore → CharacterStore
  | [] => [(group_name, m)]
  | (g, m') :: rest =>
    if g = group_name then (group_name, m) :: rest
    else (g, m') :: updateGroup group_name m rest

/-- `characters[group_name][sig] = formula` for a `sig` not yet bound: the new
binding is appended to the group's map. -/
def storeSig (group_name sig_key : String) (f : CharFormula)
    (characters : CharacterStore) : CharacterStore :=
  match alookup group_name characters with
  | some m => updateGroup group_name (m ++ [(sig_key, f)]) characters
  | none => characters

/-- One step of the offline precomputation loop
(`src/spaces/precompute_characters.py`): a signature already present in the
group's map is skipped, a missing one gets the freshly derived formula
appended. -/
def precomputeStep (derive : String → String → CharFormula) (group_name : String)
    (cs : CharacterStore) (sig_key : String) : CharacterStore :=
  match alookup group_name cs with
  | some m =>
    if (alookup sig_key m).isNone then storeSig group_name sig_key (derive group_name sig_key) cs
    else cs
  | none => cs

/-- One group iteration of the precompute script: reset the group's map to
empty when `recalculate` is set or the group is absent, then walk the group's
signature list adding the missing ones. -/
def processGroup (derive : String → String → CharFormula) (recalculate : Bool)
    (characters : CharacterStore) (job : String × List String) : CharacterStore :=
  job.2.foldl (precomputeStep derive job.1)
    (if recalculate || (alookup job.1 characters).isNone then
      updateGroup job.1 [] characters
    else characters)

/-- The whole offline precomputation run: start from the loaded store (or from
empty under `recalculate`) and process every configured group job; the result
is what is written back to `precomputed_characters.json`.  `derive` stands for
the symbolic derivation `character_class(...)._compute_character_formula()`. -/
def precompute_characters (recalculate : Bool) (loaded : CharacterStore)
    (jobs : List (String × List String)) (derive : String → String → CharFormula) :
    CharacterStore :=
  jobs.foldl (processGroup derive recalculate) (if recalculate then [] else loaded)

/-- Two-level lookup in the store. -/
def lookupSig (characters : CharacterStore) (group_name sig_key : String) :
    Option CharFormula :=
  (alookup group_name characters).bind (alookup sig_key)

/-! ### Noncompact spaces: spectral-measure dispatch (claim C7) -/

/-- The spectral-measure argument of `generate_lb_eigenspaces`: the two
recognized classes, or any other object. -/
inductive SpectralMeasure where
  | matern
  | sqExp
  | unrecognized

/-- What a call to `generate_lb_eigenspaces` does: assign `self.lb_eigenspaces`
from the named sampling branch, return the class `NotImplementedError` as an
ordinary value (raising nothing), or raise. -/
inductive GenerateLbOutcome where
  | assignedLbEigenspaces (family : String)
  | returnedValueNotImplementedError
  | raisedNotImplementedError
deriving DecidableEq

/-- `HyperbolicSpace.generate_lb_eigenspaces` (`src/spaces/hyperbolic.py`):
dispatch on the measure class; the fallthrough branch executes
`return NotImplementedError` — the exception class is returned as a value, no
exception is raised, and `lb_eigenspaces` is left unset.  The stochastic
sampling inside the recognized branches is abstracted to the branch tag. -/
def HyperbolicSpace.generate_lb_eigenspaces : SpectralMeasure → GenerateLbOutcome
  | .matern => .assignedLbEigenspaces "MaternSpectralMeasure"
  | .sqExp => .assignedLbEigenspaces "SqExpSpectralMeasure"
  | .unrecognized => .returnedValueNotImplementedError

/-- `SymmetricPositiveDefiniteMatrices.generate_lb_eigenspaces`
(`src/spaces/spd.py`): same dispatch structure, same `return NotImplementedError`
slip in the fallthrough branch. -/
def SymmetricPositiveDefiniteMatrices.generate_lb_eigenspaces :
    SpectralMeasure → GenerateLbOutcome
  | .matern => .assignedLbEigenspaces "MaternSpectralMeasure"
  | .sqExp => .assignedLbEigenspaces "SqExpSpectralMeasure"
  | .unrecognized => .returnedValueNotImplementedError

/-! ### Random sampling (claim C10)

The `torch.randn` draw and the row norms `torch.norm(x, dim=1)` computed from
it enter as parameters; that the second is the Euclidean norm of the first is
a hypothesis of the theorems (a row norm is characterized exactly by being
nonnegative with square equal to the row's sum of squares). -/

/-- `Sphere.rand` (`src/lie_stationary_kernels/spaces/sphere.py`): `n = 0`
returns `None`; otherwise an `(n, self.n + 1)` standard-normal draw is
normalized row by row. -/
def Sphere.rand (n self_n : ℕ) (draw : Fin n → Fin (self_n + 1) → ℚ)
    (rowNorm : Fin n → ℚ) : Option (Fin n → Fin (self_n + 1) → ℚ) :=
  if n = 0 then none else some (fun i k => draw i k / rowNorm i)

/-- `ProjectiveSpace.rand`: textually the same body as `Sphere.rand`. -/
def ProjectiveSpace.rand (n self_n : ℕ) (draw : Fin n → Fin (self_n + 1) → ℚ)
    (rowNorm : Fin n → ℚ) : Option (Fin n → Fin (self_n + 1) → ℚ) :=
  if n = 0 then none else some (fun i k => draw i k / rowNorm i)

/-- `HyperbolicSpace.rand_phase` (`src/spaces/hyperbolic.py`): `n = 0` returns
`None`; otherwise an `(n, self.dim)` standard-normal draw is normalized row by
row. -/
def HyperbolicSpace.rand_phase (n dim : ℕ) (draw : Fin n → Fin dim → ℚ)
    (rowNorm : Fin n → ℚ) : Option (Fin n → Fin dim → ℚ) :=
  if n = 0 then none else some (fun i k => draw i k / rowNorm i)

/-! ## Theorems -/

/-! ### Claim C7 -/

/-- C7 (status: code_bug).  The claim says an unrecognized spectral-measure
type "signals a not-implemented error"; the source of both noncompact spaces
executes `return NotImplementedError` in that branch, so the exception class
is returned as an ordinary value and nothing is raised (`lb_eigenspaces` is
silently left unset).  This theorem evaluates both embedded dispatchers at the
failing input. -/
theorem C7_unrecognized_measure_returns_class :
    HyperbolicSpace.generate_lb_eigenspaces .unrecognized =
        GenerateLbOutcome.returnedValueNotImplementedError ∧
      SymmetricPositiveDefiniteMatrices.generate_lb_eigenspaces .unrecognized =
        GenerateLbOutcome.returnedValueNotImplementedError ∧
      HyperbolicSpace.generate_lb_eigenspaces .unrecognized ≠
        GenerateLbOutcome.raisedNotImplementedError ∧
      SymmetricPositiveDefiniteMatrices.generate_lb_eigenspaces .unrecognized ≠
        GenerateLbOutcome.raisedNotImplementedError :=
  ⟨rfl, rfl, by decide, by decide⟩

/-! ### Claim C5 -/

/-- C5 counterexample.  The claim quantifies over every group, but the SO
denominator-free character never touches the persisted cache: constructed with
`_character_formula_computed = False`, its `chi` recomputes the symbolic
formula in process instead of raising anything. -/
theorem C5_counterexample_so_recomputes :
    SOCharacterDenominatorFree.chiFormulaSource
        SOCharacterDenominatorFree.init_formula_computed =
      SOChiFormulaSource.recomputedInProcess := rfl

/-- C5 as amended: for SU(n), a cache miss at either level (group absent, or
signature absent from the group's map) makes the constructor raise a
`KeyError` carrying the missing key together with the group name, with no
recomputation; the SO denominator-free character instead never reads the
cache and always derives the formula in process. -/
theorem C5_amended_su_raises_so_recomputes :
    (∀ (character_formulas : CharacterStore) (n : ℕ) (signature_key : String)
        (m : List (String × CharFormula)),
      alookup ("SU(" ++ toString n ++ ")") character_formulas = some m →
      alookup signature_key m = none →
      SUCharacterDenominatorFree.init character_formulas n signature_key =
        .error (.keyError signature_key ("SU(" ++ toString n ++ ")"))) ∧
    (∀ (character_formulas : CharacterStore) (n : ℕ) (signature_key : String),
      alookup ("SU(" ++ toString n ++ ")") character_formulas = none →
      SUCharacterDenominatorFree.init character_formulas n signature_key =
        .error (.keyError ("SU(" ++ toString n ++ ")") ("SU(" ++ toString n ++ ")"))) ∧
    SOCharacterDenominatorFree.chiFormulaSource false =
      SOChiFormulaSource.recomputedInProcess := by
  refine ⟨?_, ?_, rfl⟩
  · intro character_formulas n signature_key m hm hs
    simp only [SUCharacterDenominatorFree.init, hm, hs]
  · intro character_formulas n signature_key hm
    simp only [SUCharacterDenominatorFree.init, hm]

/-- C5 witness: a concrete store holding only the signature `(2, 1, 0)` of
SU(3); asking for `(1, 0, 0)` raises the `KeyError` naming the pair. -/
theorem C5_missing_signature_witness :
    SUCharacterDenominatorFree.init [("SU(3)", [("(2, 1, 0)", ([1], [[1]]))])] 3 "(1, 0, 0)" =
      .error (.keyError "(1, 0, 0)" "SU(3)") :=
  C5_amended_su_raises_so_recomputes.1 _ 3 _ _ rfl rfl

/-! ### Claim C2 -/

/-- C2 (status: confirmed, with `close_to_eye` bound per the spec to the
`close_to_id` of the sources).  Whenever the product `x_i · y_j⁻¹` is within
absolute tolerance `1e-5` of the identity in every entry, the entry the
pairwise `forward` produces is `dimension ** 2` in place of the character
value — the `isclose` test also allows `rtol·|eye|` on top of the absolute
part, so entrywise `≤ 1e-5` is sufficient; in particular an exact identity
product yields exactly `dimension ** 2`, whatever `chi` is. -/
theorem C2_identity_replacement :
    (∀ (n m d : ℕ) (dimension : ℤ) (chi : (Fin d → Fin d → ℚ) → ℚ)
        (inv : (Fin d → Fin d → ℚ) → (Fin d → Fin d → ℚ))
        (x y : Fin n → Fin m → (Fin d → Fin d → ℚ)) (i : Fin n) (j : Fin m),
      (∀ a b, |matMul (x i j) (inv (y i j)) a b - eye d a b| ≤ 1 / 100000) →
      LieGroupCharacter.forward dimension chi inv x y i j = (dimension : ℚ) ^ 2) ∧
    (∀ (n m d : ℕ) (dimension : ℤ) (chi : (Fin d → Fin d → ℚ) → ℚ)
        (inv : (Fin d → Fin d → ℚ) → (Fin d → Fin d → ℚ))
        (x y : Fin n → Fin m → (Fin d → Fin d → ℚ)) (i : Fin n) (j : Fin m),
      matMul (x i j) (inv (y i j)) = eye d →
      LieGroupCharacter.forward dimension chi inv x y i j = (dimension : ℚ) ^ 2) := by
  have main : ∀ (n m d : ℕ) (dimension : ℤ) (chi : (Fin d → Fin d → ℚ) → ℚ)
      (inv : (Fin d → Fin d → ℚ) → (Fin d → Fin d → ℚ))
      (x y : Fin n → Fin m → (Fin d → Fin d → ℚ)) (i : Fin n) (j : Fin m),
      (∀ a b, |matMul (x i j) (inv (y i j)) a b - eye d a b| ≤ 1 / 100000) →
      LieGroupCharacter.forward dimension chi inv x y i j = (dimension : ℚ) ^ 2 := by
    intro n m d dimension chi inv x y i j h
    unfold LieGroupCharacter.forward
    rw [if_pos]
    intro a b
    unfold torchIsClose
    calc |matMul (x i j) (inv (y i j)) a b - eye d a b| ≤ 1 / 100000 := h a b
      _ ≤ 1 / 100000 + 1 / 100000 * |eye d a b| := by
          have := abs_nonneg (eye d a b)
          nlinarith
  refine ⟨main, ?_⟩
  intro n m d dimension chi inv x y i j h
  refine main n m d dimension chi inv x y i j ?_
  intro a b
  rw [h]
  simp

/-- C2 witness: one 1×1 batch at the identity, transpose inverse, an arbitrary
character stub, dimension 7: the produced entry is `7 ** 2`. -/
theorem C2_identity_witness :
    @LieGroupCharacter.forward 1 1 1 7 (fun _ => 0) SO.inv
      (fun _ _ _ _ => 1) (fun _ _ _ _ => 1) 0 0 = (7 : ℚ) ^ 2 :=
  C2_identity_replacement.1 1 1 1 7 (fun _ => 0) SO.inv (fun _ _ _ _ => 1) (fun _ _ _ _ => 1) 0 0
    (fun a b => by
      fin_cases a
      fin_cases b
      norm_num [matMul, SO.inv, eye, Fin.sum_univ_one])

/-! ### Claim C4 -/

/-- C4 counterexample.  `(1, 0, 0)` is a generated SU(3) signature (for any
order; the value cap for `n = 3` is 5), and its computed LB eigenvalue is
`8/3`, not the `‖ρ + signature‖² − ‖ρ‖² = 3` that the claim states: the SU
code first recentres the signature by its mean. -/
theorem C4_counterexample_su_not_raw_formula :
    [1, 0, 0] ∈ SU.generate_signatures 3 1 ∧
    SULBEigenspace.compute_lb_eigenvalue 3 [1, 0, 0] ≠
      specLbFormula (SU.rho 3) (([1, 0, 0] : List ℤ).map (fun a : ℤ => (a : ℚ))) := by
  constructor
  · decide
  · norm_num [SULBEigenspace.compute_lb_eigenvalue, specLbFormula, SU.rho, normSq,
      List.range_succ]

/-- C4 as amended.  For SO(n) the computed eigenvalue is exactly the spec's
`‖ρ + signature‖² − ‖ρ‖²` with ρ the per-group half-sum vector; for SU(n) the
same formula holds only after the signature is recentred by subtracting its
mean (the code's change of basis), which changes the value whenever the
signature's mean is nonzero. -/
theorem C4_amended_eigenvalue_formula :
    (∀ (n : ℕ) (signature : List ℤ),
      SOLBEigenspace.compute_lb_eigenvalue n signature =
        specLbFormula (SO.rho n) (signature.map (fun a : ℤ => (a : ℚ)))) ∧
    (∀ (n : ℕ) (signature : List ℤ),
      SULBEigenspace.compute_lb_eigenvalue n signature =
        specLbFormula (SU.rho n) (centered (signature.map (fun a : ℤ => (a : ℚ))))) := by
  constructor
  · intro n signature; rfl
  · intro n signature
    unfold SULBEigenspace.compute_lb_eigenvalue specLbFormula centered
    rw [List.length_map]

/-! ### Claim C8 -/

/-- C8 (status: confirmed).  SO(n) with `n ≤ 2` is rejected at construction by
the explicit `ValueError`.  SU has no explicit validation, but a degenerate
rank still makes `__init__` raise: `n = 0` gives rank `-1` and
`combinations_with_replacement` raises `ValueError`, and `n = 1` makes the
eager dimension computation of the single generated signature reduce an empty
iterable with no initial element (`TypeError`). -/
theorem C8_construction_rejection :
    (∀ n order : ℕ, n ≤ 2 →
      SO.init n order = .error (.valueError "Dimensions 1, 2 are not supported")) ∧
    (∀ order : ℕ, SU.init 0 order = .error (.valueError "r must be non-negative")) ∧
    (∀ order : ℕ, SU.init 1 order =
      .error (.typeError "reduce() of empty iterable with no initial value")) := by
  refine ⟨?_, fun order => rfl, fun order => rfl⟩
  intro n order h
  simp [SO.init, h]

/-- C8 witness: the boundary instances `SO(2)`, `SU(0)` and `SU(1)` all fail
at construction with the stated errors. -/
theorem C8_construction_rejection_witness :
    SO.init 2 10 = .error (.valueError "Dimensions 1, 2 are not supported") ∧
    SU.init 0 10 = .error (.valueError "r must be non-negative") ∧
    SU.init 1 10 = .error (.typeError "reduce() of empty iterable with no initial value") :=
  ⟨C8_construction_rejection.1 2 10 (by norm_num), C8_construction_rejection.2.1 10,
    C8_construction_rejection.2.2 10⟩

/-! ### Claim C10 -/

/-- C10 (status: confirmed).  `Sphere.rand`, `ProjectiveSpace.rand` and
`HyperbolicSpace.rand_phase` return `None` for a batch size of `0`; for a
positive batch size they return the normal draw normalized row by row, and
each returned row has unit Euclidean norm (stated as the sum of squared
entries being exactly `1`) whenever the rows of the draw are nonzero, i.e.
their norms are positive. -/
theorem C10_rand_zero_and_unit_rows :
    (∀ (self_n : ℕ) (draw : Fin 0 → Fin (self_n + 1) → ℚ) (rowNorm : Fin 0 → ℚ),
      Sphere.rand 0 self_n draw rowNorm = none) ∧
    (∀ (self_n : ℕ) (draw : Fin 0 → Fin (self_n + 1) → ℚ) (rowNorm : Fin 0 → ℚ),
      ProjectiveSpace.rand 0 self_n draw rowNorm = none) ∧
    (∀ (dim : ℕ) (draw : Fin 0 → Fin dim → ℚ) (rowNorm : Fin 0 → ℚ),
      HyperbolicSpace.rand_phase 0 dim draw rowNorm = none) ∧
    (∀ (n self_n : ℕ) (draw : Fin n → Fin (self_n + 1) → ℚ) (rowNorm : Fin n → ℚ),
      n ≠ 0 → (∀ i, 0 < rowNorm i ∧ rowNorm i ^ 2 = ∑ k, draw i k ^ 2) →
      ∃ v, Sphere.rand n self_n draw rowNorm = some v ∧ ∀ i, (∑ k, v i k ^ 2) = 1) ∧
    (∀ (n self_n : ℕ) (draw : Fin n → Fin (self_n + 1) → ℚ) (rowNorm : Fin n → ℚ),
      n ≠ 0 → (∀ i, 0 < rowNorm i ∧ rowNorm i ^ 2 = ∑ k, draw i k ^ 2) →
      ∃ v, ProjectiveSpace.rand n self_n draw rowNorm = some v ∧
        ∀ i, (∑ k, v i k ^ 2) = 1) ∧
    (∀ (n dim : ℕ) (draw : Fin n → Fin dim → ℚ) (rowNorm : Fin n → ℚ),
      n ≠ 0 → (∀ i, 0 < rowNorm i ∧ rowNorm i ^ 2 = ∑ k, draw i k ^ 2) →
      ∃ v, HyperbolicSpace.rand_phase n dim draw rowNorm = some v ∧
        ∀ i, (∑ k, v i k ^ 2) = 1) := by
  have key : ∀ (n c : ℕ) (draw : Fin n → Fin c → ℚ) (rowNorm : Fin n → ℚ),
      (∀ i, 0 < rowNorm i ∧ rowNorm i ^ 2 = ∑ k, draw i k ^ 2) →
      ∀ i, (∑ k, (draw i k / rowNorm i) ^ 2) = 1 := by
    intro n c draw rowNorm h i
    have h1 := (h i).1
    have h2 := (h i).2
    have hsum : (∑ k, (draw i k / rowNorm i) ^ 2) = (∑ k, draw i k ^ 2) / rowNorm i ^ 2 := by
      rw [Finset.sum_div]
      exact Finset.sum_congr rfl (fun k _ => div_pow (draw i k) (rowNorm i) 2)
    rw [hsum, ← h2, div_self (pow_ne_zero 2 h1.ne')]
  refine ⟨fun _ _ _ => rfl, fun _ _ _ => rfl, fun _ _ _ => rfl, ?_, ?_, ?_⟩
  · intro n self_n draw rowNorm hn h
    exact ⟨_, by simp [Sphere.rand, hn], key n (self_n + 1) draw rowNorm h⟩
  · intro n self_n draw rowNorm hn h
    exact ⟨_, by simp [ProjectiveSpace.rand, hn], key n (self_n + 1) draw rowNorm h⟩
  · intro n dim draw rowNorm hn h
    exact ⟨_, by simp [HyperbolicSpace.rand_phase, hn], key n dim draw rowNorm h⟩

/-- C10 witness: a single-row draw `(3, 4)` with row norm `5` gives the unit
vector `(3/5, 4/5)`. -/
theorem C10_rand_witness :
    ∃ v, Sphere.rand 1 1 (fun _ => ![3, 4]) (fun _ => 5) = some v ∧
      ∀ i, (∑ k, v i k ^ 2) = 1 :=
  C10_rand_zero_and_unit_rows.2.2.2.1 1 1 (fun _ => ![3, 4]) (fun _ => 5) (by norm_num)
    (fun i => by constructor <;> norm_num [Fin.sum_univ_succ])

/-! ### Claim C9 -/

/-- After rebinding a group, looking that group up yields the new map. -/
theorem alookup_updateGroup_self (group_name : String) (m : List (String × CharFormula))
    (cs : CharacterStore) : alookup group_name (updateGroup group_name m cs) = some m := by
  induction cs with
  | nil => simp [updateGroup, alookup]
  | cons hd tl ih =>
    obtain ⟨g, m'⟩ := hd
    by_cases h : g = group_name
    · subst h; simp [updateGroup, alookup]
    · simp [updateGroup, alookup, h, ih]

/-- Rebinding one group leaves every other group's lookup unchanged. -/
theorem alookup_updateGroup_ne {group_name g : String} (hne : group_name ≠ g)
    (m : List (String × CharFormula)) (cs : CharacterStore) :
    alookup g (updateGroup group_name m cs) = alookup g cs := by
  induction cs with
  | nil => simp [updateGroup, alookup, hne]
  | cons hd tl ih =>
    obtain ⟨g', m'⟩ := hd
    by_cases h : g' = group_name
    · subst h; simp [updateGroup, alookup, hne]
    · simp [updateGroup, alookup, h, ih]

/-- A key bound in the front part of an association list keeps its value after
appending (a Python dict insertion of a fresh key appends at the end). -/
theorem alookup_append_left {α : Type} {key : String} {l₁ : List (String × α)} {v : α}
    (h : alookup key l₁ = some v) (l₂ : List (String × α)) :
    alookup key (l₁ ++ l₂) = some v := by
  induction l₁ with
  | nil => simp [alookup] at h
  | cons hd tl ih =>
    obtain ⟨k', v'⟩ := hd
    by_cases hk : k' = key
    · simp_all [alookup]
    · simp_all [alookup]

/-- Inserting one (missing) signature binding never changes an existing
`(group, signature)` lookup. -/
theorem lookupSig_storeSig (g0 s0 : String) (f0 : CharFormula) {cs : CharacterStore}
    {g s : String} {f : CharFormula} (h : lookupSig cs g s = some f) :
    lookupSig (storeSig g0 s0 f0 cs) g s = some f := by
  unfold storeSig
  cases hm : alookup g0 cs with
  | none => exact h
  | some m =>
    by_cases hg : g0 = g
    · subst hg
      unfold lookupSig at h ⊢
      rw [hm] at h
      simp only [Option.some_bind] at h
      rw [alookup_updateGroup_self]
      simpa using alookup_append_left h [(s0, f0)]
    · unfold lookupSig at h ⊢
      rw [alookup_updateGroup_ne hg]
      exact h

/-- One precompute step (`if str(irrep.index) not in characters[group_name]`)
never changes an existing `(group, signature)` entry. -/
theorem lookupSig_precomputeStep (derive : String → String → CharFormula)
    (group_name sig_key : String) {cs : CharacterStore} {g s : String}
    {f : CharFormula} (h : lookupSig cs g s = some f) :
    lookupSig (precomputeStep derive group_name cs sig_key) g s = some f := by
  unfold precomputeStep
  cases hm : alookup group_name cs with
  | none => exact h
  | some m =>
    by_cases hs : (alookup sig_key m).isNone
    · simpa [hs] using lookupSig_storeSig group_name sig_key (derive group_name sig_key) h
    · simpa [hs] using h

/-- The signature loop of one group job preserves existing entries. -/
theorem lookupSig_foldl_steps (derive : String → String → CharFormula)
    (group_name : String) (sigs : List String) :
    ∀ {cs : CharacterStore} {g s : String} {f : CharFormula},
      lookupSig cs g s = some f →
      lookupSig (sigs.foldl (precomputeStep derive group_name) cs) g s = some f := by
  induction sigs with
  | nil => intro cs g s f h; exact h
  | cons hd tl ih =>
    intro cs g s f h
    exact ih (lookupSig_precomputeStep derive group_name hd h)

/-- A whole group job, run without `recalculate`, preserves existing entries:
a group that holds the entry is never reset (its lookup is not `none`), other
groups' resets do not touch it, and the signature loop only adds missing
keys. -/
theorem lookupSig_processGroup (derive : String → String → CharFormula)
    (job : String × List String) {cs : CharacterStore} {g s : String} {f : CharFormula}
    (h : lookupSig cs g s = some f) :
    lookupSig (processGroup derive false cs job) g s = some f := by
  unfold processGroup
  apply lookupSig_foldl_steps
  by_cases hj : job.1 = g
  · subst hj
    have hnone : (alookup job.1 cs).isNone = false := by
      unfold lookupSig at h
      cases hl : alookup job.1 cs with
      | none => rw [hl] at h; simp at h
      | some m => simp
    simpa [hnone] using h
  · by_cases hn : (alookup job.1 cs).isNone
    · have : lookupSig (updateGroup job.1 [] cs) g s = some f := by
        unfold lookupSig at h ⊢
        rw [alookup_updateGroup_ne hj]
        exact h
      simpa [hn] using this
    · simpa [hn] using h

/-- C9 (status: confirmed).  Running the offline precomputation with the
`recalculate` flag off leaves every `(group, signature)` pair already present
in the loaded cache bound to its original `(coefficients, monomials)` value,
whatever the configured jobs and whatever the symbolic derivation `derive`
would produce: keys already in the loaded store are skipped. -/
theorem C9_cache_idempotence (loaded : CharacterStore) (jobs : List (String × List String))
    (derive : String → String → CharFormula) (group_name sig_key : String) (f : CharFormula)
    (h : lookupSig loaded group_name sig_key = some f) :
    lookupSig (precompute_characters false loaded jobs derive) group_name sig_key = some f := by
  suffices hh : ∀ (js : List (String × List String)) (cs : CharacterStore),
      lookupSig cs group_name sig_key = some f →
      lookupSig (js.foldl (processGroup derive false) cs) group_name sig_key = some f by
    exact hh jobs loaded h
  intro js
  induction js with
  | nil => intro cs h'; exact h'
  | cons j tl ih => intro cs h'; exact ih _ (lookupSig_processGroup derive j h')

/-- C9 witness: a store holding SO(3) signature `(1,)`; re-running the job for
SO(3) over `(1,)` and `(2,)` with a derivation stub leaves the stored entry
untouched. -/
theorem C9_cache_idempotence_witness :
    lookupSig
      (precompute_characters false [("SO(3)", [("(1,)", ([2], [[1, 0]]))])]
        [("SO(3)", ["(1,)", "(2,)"])] (fun _ _ => ([0], [])))
      "SO(3)" "(1,)" = some ([2], [[1, 0]]) :=
  C9_cache_idempotence _ _ _ _ _ _ rfl

/-! ### Claim C3 -/

/-- The three SO(3) eigenvalues needed for the concrete scenario. -/
theorem so3_eigenvalue_values :
    SOLBEigenspace.compute_lb_eigenvalue 3 [0] = 0 ∧
    SOLBEigenspace.compute_lb_eigenvalue 3 [1] = 2 ∧
    SOLBEigenspace.compute_lb_eigenvalue 3 [2] = 6 := by
  refine ⟨?_, ?_, ?_⟩ <;>
    norm_num [SOLBEigenspace.compute_lb_eigenvalue, SO.rho, normSq, show List.range 1 = [0] from rfl]

/-- The decorated SO(3) signature list is already sorted for the heap order. -/
theorem so3_decorated_sorted :
    List.Sorted (heapqLe (CompactGroup.lb_eigenvalue (.so 3)))
      [(0, [0]), (1, [1]), (2, [2])] := by
  obtain ⟨e0, e1, e2⟩ := so3_eigenvalue_values
  refine List.Pairwise.cons ?_ (List.Pairwise.cons ?_ (List.pairwise_singleton _ _))
  · intro b hb
    rcases List.mem_cons.mp hb with rfl | hb
    · exact Or.inl (by simp only [CompactGroup.lb_eigenvalue, e0, e1]; norm_num)
    · rcases List.mem_singleton.mp hb with rfl
      exact Or.inl (by simp only [CompactGroup.lb_eigenvalue, e0, e2]; norm_num)
  · intro b hb
    rcases List.mem_singleton.mp hb with rfl
    exact Or.inl (by simp only [CompactGroup.lb_eigenvalue, e1, e2]; norm_num)

/-- C3 (status: confirmed).  `SO(3)` with `order = 3` produces exactly the
ordered eigenspace signatures `[(0,), (1,), (2,)]`, with dimensions
`[1, 3, 5]` and LB eigenvalues `[0, 2, 6]`. -/
theorem C3_so3_order3_scenario :
    CompactGroup.lb_eigenspaces (.so 3) 3 = [[0], [1], [2]] ∧
    (CompactGroup.lb_eigenspaces (.so 3) 3).map (SOLBEigenspace.compute_dimension 3) =
      [1, 3, 5] ∧
    (CompactGroup.lb_eigenspaces (.so 3) 3).map (SOLBEigenspace.compute_lb_eigenvalue 3) =
      [0, 2, 6] := by
  obtain ⟨e0, e1, e2⟩ := so3_eigenvalue_values
  have hsig : SO.generate_signatures 3 3 = [[0], [1], [2]] := by decide
  have hmain : CompactGroup.lb_eigenspaces (.so 3) 3 = [[0], [1], [2]] := by
    show nsmallest 3 (CompactGroup.lb_eigenvalue (.so 3)) (SO.generate_signatures 3 3) = _
    rw [hsig]
    unfold nsmallest
    rw [show withIdx 0 [[0], [1], [2]] =
      ([(0, [0]), (1, [1]), (2, [2])] : List (ℕ × List ℤ)) from rfl]
    rw [List.Sorted.insertionSort_eq so3_decorated_sorted]
    rfl
  have d0 : SOLBEigenspace.compute_dimension 3 [0] = 1 := by
    norm_num [SOLBEigenspace.compute_dimension, soOddQ, rankPairs, show List.range 1 = [0] from rfl,
      Nat.factorial]
  have d1 : SOLBEigenspace.compute_dimension 3 [1] = 3 := by
    norm_num [SOLBEigenspace.compute_dimension, soOddQ, rankPairs, show List.range 1 = [0] from rfl,
      Nat.factorial]
  have d2 : SOLBEigenspace.compute_dimension 3 [2] = 5 := by
    norm_num [SOLBEigenspace.compute_dimension, soOddQ, rankPairs, show List.range 1 = [0] from rfl,
      Nat.factorial]
  refine ⟨hmain, ?_, ?_⟩
  · rw [hmain]; simp [d0, d1, d2]
  · rw [hmain]; simp [e0, e1, e2]

/-! ### Claim C1 -/

/-- Decoration does not change the length. -/
theorem withIdx_length {α : Type} (i : ℕ) (l : List α) : (withIdx i l).length = l.length := by
  induction l generalizing i with
  | nil => rfl
  | cons a l ih => simp [withIdx, ih]

/-- Every decorated index is at least the starting index. -/
theorem withIdx_fst_le {α : Type} {i : ℕ} {l : List α} {a : ℕ × α}
    (h : a ∈ withIdx i l) : i ≤ a.1 := by
  induction l generalizing i with
  | nil => simp [withIdx] at h
  | cons x l ih =>
    rcases List.mem_cons.mp h with rfl | h
    · exact Nat.le_refl i
    · exact (Nat.le_succ i).trans (ih h)

/-- The decorated indices are strictly increasing along the list. -/
theorem withIdx_pairwise_fst {α : Type} (i : ℕ) (l : List α) :
    (withIdx i l).Pairwise (fun a b => a.1 < b.1) := by
  induction l generalizing i with
  | nil => exact List.Pairwise.nil
  | cons x l ih =>
    refine List.Pairwise.cons ?_ (ih (i + 1))
    intro b hb
    exact Nat.lt_of_lt_of_le (Nat.lt_succ_self i) (withIdx_fst_le hb)

/-- C1 (status: confirmed).  For any compact group family and order, the
constructed `lb_eigenspaces` is obtained from the generated signature list
(paired with its generation indices) by keeping `min order (number generated)`
eigenspaces so that: the kept list is ordered by strictly “smaller eigenvalue,
or equal eigenvalue and earlier generation index”, and every kept entry beats
every dropped entry in that same order — i.e. the `order` smallest LB
eigenvalues among all generated signatures, sorted nondecreasingly, with ties
broken deterministically by generation order.  (When fewer than `order`
signatures are generated the whole list is kept, whence the `min`.) -/
theorem C1_lb_eigenspaces_selection (g : CompactGroup) (order : ℕ) :
    ∃ kept dropped : List (ℕ × List ℤ),
      CompactGroup.lb_eigenspaces g order = kept.map Prod.snd ∧
      kept.length = min order (CompactGroup.generate_signatures g order).length ∧
      (kept ++ dropped).Perm (withIdx 0 (CompactGroup.generate_signatures g order)) ∧
      kept.Pairwise (strictKey (CompactGroup.lb_eigenvalue g)) ∧
      ∀ a ∈ kept, ∀ b ∈ dropped, strictKey (CompactGroup.lb_eigenvalue g) a b := by
  set eig := CompactGroup.lb_eigenvalue g with heig
  set L := withIdx 0 (CompactGroup.generate_signatures g order) with hL
  set S := List.insertionSort (heapqLe eig) L with hS
  have hperm : S.Perm L := List.perm_insertionSort (heapqLe eig) L
  have hsorted : List.Pairwise (heapqLe eig) S := List.sorted_insertionSort (heapqLe eig) L
  have hne : S.Pairwise (fun a b : ℕ × List ℤ => a.1 ≠ b.1) := by
    have hsym : ∀ {x y : ℕ × List ℤ}, x.1 ≠ y.1 → y.1 ≠ x.1 := fun h => h.symm
    refine (List.Perm.pairwise_iff hsym hperm).mpr ?_
    exact (withIdx_pairwise_fst 0 _).imp Nat.ne_of_lt
  have hcomb : S.Pairwise (fun a b => heapqLe eig a b ∧ a.1 ≠ b.1) := hsorted.and hne
  have hstrict : ∀ {a b : ℕ × List ℤ}, heapqLe eig a b ∧ a.1 ≠ b.1 → strictKey eig a b := by
    rintro a b ⟨hle | ⟨heq, hle⟩, hab⟩
    · exact Or.inl hle
    · exact Or.inr ⟨heq, Nat.lt_of_le_of_ne hle hab⟩
  refine ⟨S.take order, S.drop order, rfl, ?_, ?_, ?_, ?_⟩
  · simp only [List.length_take, hperm.length_eq, hL, withIdx_length]
  · rw [List.take_append_drop]; exact hperm
  · exact (hcomb.sublist (List.take_sublist order S)).imp hstrict
  · have hsplit : List.Pairwise (fun a b => heapqLe eig a b ∧ a.1 ≠ b.1)
        (S.take order ++ S.drop order) := by
      rw [List.take_append_drop]; exact hcomb
    exact fun a ha b hb => hstrict ((List.pairwise_append.mp hsplit).2.2 a ha b hb)

/-! ### Claim C6 -/

/-- Every list produced by `partsMax k maxv s` has exactly `k` parts, sums to
`s`, and has every part in `[1, maxv]`. -/
theorem partsMax_mem {k : ℕ} : ∀ {maxv s : ℕ} {p : List ℕ}, p ∈ partsMax k maxv s →
    p.length = k ∧ p.sum = s ∧ ∀ a ∈ p, 1 ≤ a ∧ a ≤ maxv := by
  induction k with
  | zero =>
    intro maxv s p hp
    unfold partsMax at hp
    split at hp
    · rcases List.mem_singleton.mp hp with rfl
      simp_all
    · simp at hp
  | succ k ih =>
    intro maxv s p hp
    unfold partsMax at hp
    obtain ⟨t, ht, hp⟩ := List.mem_flatMap.mp hp
    rw [List.mem_range] at ht
    split at hp
    case isTrue hle =>
      obtain ⟨q, hq, rfl⟩ := List.mem_map.mp hp
      obtain ⟨hlen, hsum, hmem⟩ := ih hq
      refine ⟨by simp [hlen], by simp [hsum]; omega, ?_⟩
      intro a ha
      rcases List.mem_cons.mp ha with rfl | ha
      · omega
      · have := hmem a ha
        omega
    case isFalse => simp at hp

/-- `partsMax` lists each partition at most once. -/
theorem partsMax_nodup (k : ℕ) : ∀ (maxv s : ℕ), (partsMax k maxv s).Nodup := by
  induction k with
  | zero =>
    intro maxv s
    unfold partsMax
    split
    · exact List.nodup_singleton _
    · exact List.nodup_nil
  | succ k ih =>
    intro maxv s
    unfold partsMax
    rw [List.nodup_flatMap]
    constructor
    · intro t ht
      split
      · exact (ih (maxv - t) (s - (maxv - t))).map (fun p q h => by injection h)
      · exact List.nodup_nil
    · refine List.Pairwise.imp_of_mem ?_ (List.pairwise_lt_range maxv)
      intro a b ha hb hab x hxa hxb
      rw [List.mem_range] at ha hb
      dsimp only at hxa hxb
      have hha : x.head? = some (maxv - a) := by
        split at hxa
        · obtain ⟨q, hq, rfl⟩ := List.mem_map.mp hxa; rfl
        · simp at hxa
      have hhb : x.head? = some (maxv - b) := by
        split at hxb
        · obtain ⟨q, hq, rfl⟩ := List.mem_map.mp hxb; rfl
        · simp at hxb
      rw [hha] at hhb
      have : maxv - a = maxv - b := by injection hhb
      omega

/-- The absolute values of a padded signature are the partition followed by
the padding zeros. -/
theorem soPad_map_natAbs (rank i : ℕ) (p : List ℕ) :
    (soPad rank i p).map Int.natAbs = p ++ List.replicate (rank - i) 0 := by
  unfold soPad
  rw [List.map_append, List.map_map, List.map_replicate]
  simp [Function.comp_def]

/-- Length of a padded signature. -/
theorem soPad_length (rank i : ℕ) (p : List ℕ) :
    (soPad rank i p).length = p.length + (rank - i) := by
  simp [soPad]

/-- Negating the last entry does not change the entrywise absolute values. -/
theorem negLast_map_natAbs {l : List ℤ} (hl : l ≠ []) :
    (negLast l).map Int.natAbs = l.map Int.natAbs := by
  conv_rhs => rw [← List.dropLast_append_getLast hl]
  unfold negLast
  rw [List.getLast?_eq_getLast l hl]
  simp

/-- Negating the last entry preserves the length of a nonempty list. -/
theorem negLast_length {l : List ℤ} (hl : l ≠ []) : (negLast l).length = l.length := by
  unfold negLast
  rw [List.length_append, List.length_dropLast]
  have : l.length ≠ 0 := fun h => hl (List.length_eq_zero.mp h)
  simp
  omega

/-- The last entry after `negLast` is the negation of the original last. -/
theorem negLast_getLast (l : List ℤ) :
    (negLast l).getLast?.getD 0 = -(l.getLast?.getD 0) := by
  unfold negLast
  rw [List.getLast?_concat]
  rfl

/-- Shape of every signature `soInner` emits: its absolute values are the
partition followed by zeros, and its length is `|p| + (rank - i)`. -/
theorem soInner_absProfile {n rank i : ℕ} {p : List ℕ} {x : List ℤ}
    (hx : x ∈ soInner n rank i p) :
    x.map Int.natAbs = p ++ List.replicate (rank - i) 0 ∧
      x.length = p.length + (rank - i) := by
  unfold soInner at hx
  split at hx
  case isTrue h =>
    have hne : soPad rank i p ≠ [] := by
      intro he
      rw [he] at h
      simp at h
    rcases List.mem_cons.mp hx with rfl | hx
    · exact ⟨soPad_map_natAbs rank i p, soPad_length rank i p⟩
    · rcases List.mem_singleton.mp hx with rfl
      rw [negLast_map_natAbs hne, negLast_length hne]
      exact ⟨soPad_map_natAbs rank i p, soPad_length rank i p⟩
  case isFalse =>
    rcases List.mem_singleton.mp hx with rfl
    exact ⟨soPad_map_natAbs rank i p, soPad_length rank i p⟩

/-- The one or two signatures emitted for one partition are distinct. -/
theorem soInner_nodup (n rank i : ℕ) (p : List ℕ) : (soInner n rank i p).Nodup := by
  unfold soInner
  split
  case isTrue h =>
    refine List.nodup_cons.mpr ⟨?_, List.nodup_singleton _⟩
    rw [List.mem_singleton]
    intro heq
    have := negLast_getLast (soPad rank i p)
    rw [← heq] at this
    omega
  case isFalse => exact List.nodup_singleton _

/-- A positive-parts partition padded with zeros has exactly `|p|` nonzero
entries. -/
theorem nonzeroCount_pad {p : List ℕ} (m : ℕ) (hp : ∀ a ∈ p, 1 ≤ a) :
    nonzeroCount (p ++ List.replicate m 0) = p.length := by
  unfold nonzeroCount
  rw [List.countP_append]
  have h1 : p.countP (fun a => decide (0 < a)) = p.length :=
    List.countP_eq_length.mpr (fun a ha => by simpa using hp a ha)
  have h2 : (List.replicate m 0).countP (fun a => decide (0 < a)) = 0 :=
    List.countP_eq_zero.mpr (fun a ha => by
      rw [List.eq_of_mem_replicate ha]; simp)
  omega

/-- Padding zeros does not change the sum. -/
theorem sum_pad (p : List ℕ) (m : ℕ) : (p ++ List.replicate m 0).sum = p.sum := by
  rw [List.sum_append]
  simp

/-- The signatures emitted for the partitions of one `(s, i)` pair are
pairwise distinct. -/
theorem so_inner_level_nodup (n rank s i : ℕ) :
    ((fixed_length_partitions s i).flatMap (soInner n rank i)).Nodup := by
  rw [List.nodup_flatMap]
  refine ⟨fun p _ => soInner_nodup n rank i p, ?_⟩
  refine List.Pairwise.imp_of_mem ?_ (partsMax_nodup i s s)
  intro p q hp hq hpq x hxp hxq
  have h1 := (soInner_absProfile hxp).1
  have h2 := (soInner_absProfile hxq).1
  have hlp : p.length = i := (partsMax_mem hp).1
  have hlq : q.length = i := (partsMax_mem hq).1
  exact hpq (List.append_inj (h1.symm.trans h2) (by omega)).1

/-- The signatures emitted for one sum `s` across all partition lengths are
pairwise distinct (the length is recovered as the nonzero count). -/
theorem so_level_i_nodup (n rank s : ℕ) :
    ((List.range (rank + 1)).flatMap
      (fun i => (fixed_length_partitions s i).flatMap (soInner n rank i))).Nodup := by
  rw [List.nodup_flatMap]
  refine ⟨fun i _ => so_inner_level_nodup n rank s i, ?_⟩
  refine List.Pairwise.imp_of_mem ?_ (List.nodup_range (rank + 1))
  intro i j hi hj hij x hxi hxj
  obtain ⟨p, hp, hxp⟩ := List.mem_flatMap.mp hxi
  obtain ⟨q, hq, hxq⟩ := List.mem_flatMap.mp hxj
  have h1 := (soInner_absProfile hxp).1
  have h2 := (soInner_absProfile hxq).1
  have hp' := partsMax_mem hp
  have hq' := partsMax_mem hq
  apply hij
  have e1 : nonzeroCount (x.map Int.natAbs) = i := by
    rw [h1, nonzeroCount_pad _ (fun a ha => (hp'.2.2 a ha).1), hp'.1]
  have e2 : nonzeroCount (x.map Int.natAbs) = j := by
    rw [h2, nonzeroCount_pad _ (fun a ha => (hq'.2.2 a ha).1), hq'.1]
  omega

/-- C6, SO half: the generated SO signature list never repeats a signature
(the sum is recovered as the sum of absolute values, the partition length as
the nonzero count, the partition as the prefix of absolute values, and the
sign variants differ in their last entry). -/
theorem so_generate_nodup (n order : ℕ) : (SO.generate_signatures n order).Nodup := by
  unfold SO.generate_signatures
  rw [List.nodup_flatMap]
  refine ⟨fun s _ => so_level_i_nodup n (n / 2) s, ?_⟩
  refine List.Pairwise.imp_of_mem ?_ (List.nodup_range _)
  intro s t hs ht hst x hxs hxt
  obtain ⟨i, hi, hxi⟩ := List.mem_flatMap.mp hxs
  obtain ⟨p, hp, hxp⟩ := List.mem_flatMap.mp hxi
  obtain ⟨j, hj, hxj⟩ := List.mem_flatMap.mp hxt
  obtain ⟨q, hq, hxq⟩ := List.mem_flatMap.mp hxj
  have h1 := (soInner_absProfile hxp).1
  have h2 := (soInner_absProfile hxq).1
  have hp' := partsMax_mem hp
  have hq' := partsMax_mem hq
  apply hst
  have e1 : (x.map Int.natAbs).sum = s := by rw [h1, sum_pad, hp'.2.1]
  have e2 : (x.map Int.natAbs).sum = t := by rw [h2, sum_pad, hq'.2.1]
  omega

/-- C6, SO half: every generated SO signature has length `rank = n / 2`. -/
theorem so_generate_length (n order : ℕ) :
    ∀ sig ∈ SO.generate_signatures n order, sig.length = n / 2 := by
  intro sig hsig
  unfold SO.generate_signatures at hsig
  obtain ⟨s, hs, h1⟩ := List.mem_flatMap.mp hsig
  obtain ⟨i, hi, h2⟩ := List.mem_flatMap.mp h1
  obtain ⟨p, hp, h3⟩ := List.mem_flatMap.mp h2
  have hlen := (soInner_absProfile h3).2
  have hpl := (partsMax_mem hp).1
  rw [List.mem_range] at hi
  omega

/-- Every tuple of `combinations_with_replacement r xs` has length `r`. -/
theorem cwr_mem_length {α : Type} : ∀ {r : ℕ} {xs t : List α},
    t ∈ combinations_with_replacement r xs → t.length = r := by
  intro r
  induction r with
  | zero =>
    intro xs t ht
    rcases List.mem_singleton.mp ht with rfl
    rfl
  | succ r ih =>
    intro xs t ht
    unfold combinations_with_replacement at ht
    obtain ⟨suf, hsuf, ht⟩ := List.mem_flatMap.mp ht
    match suf with
    | [] => simp at ht
    | x :: rest =>
      obtain ⟨u, hu, rfl⟩ := List.mem_map.mp ht
      simp [ih hu]

/-- Distinct suffixes of a duplicate-free list have distinct heads. -/
theorem tails_head_ne {α : Type} {xs : List α} (h : xs.Nodup) :
    xs.tails.Pairwise
      (fun s t => ∀ a b, s.head? = some a → t.head? = some b → a ≠ b) := by
  induction xs with
  | nil => simp
  | cons x l ih =>
    rw [List.tails_cons]
    refine List.Pairwise.cons ?_ (ih (List.nodup_cons.mp h).2)
    intro t ht a b ha hb
    have hax : a = x := by simpa using ha.symm
    have hbt : b ∈ t := List.mem_of_mem_head? hb
    have hbl : b ∈ l := ((List.mem_tails t l).mp ht).subset hbt
    subst hax
    exact fun he => (List.nodup_cons.mp h).1 (he ▸ hbl)

/-- `combinations_with_replacement` over a duplicate-free pool lists each
tuple at most once. -/
theorem cwr_nodup {α : Type} : ∀ {r : ℕ} {xs : List α}, xs.Nodup →
    (combinations_with_replacement r xs).Nodup := by
  intro r
  induction r with
  | zero => intro xs _; exact List.nodup_singleton _
  | succ r ih =>
    intro xs h
    unfold combinations_with_replacement
    rw [List.nodup_flatMap]
    constructor
    · intro suf hsuf
      match suf with
      | [] => exact List.nodup_nil
      | x :: rest =>
        have hsub : (x :: rest) <:+ xs := (List.mem_tails _ _).mp hsuf
        have hnd : (x :: rest).Nodup := hsub.sublist.nodup h
        exact (ih hnd).map (fun a b hab => by injection hab)
    · refine List.Pairwise.imp ?_ (tails_head_ne h)
      intro s t hst u hus hut
      match s with
      | [] => simp at hus
      | a :: s' =>
        match t with
        | [] => simp at hut
        | b :: t' =>
          obtain ⟨v, hv, rfl⟩ := List.mem_map.mp hus
          obtain ⟨w, hw, he⟩ := List.mem_map.mp hut
          have hab : a = b := by
            have := congrArg List.head? he
            simpa using this.symm
          exact hst a b rfl rfl hab

/-- C6, SU half: the generated SU signature list never repeats a signature. -/
theorem su_generate_nodup (n order : ℕ) : (SU.generate_signatures n order).Nodup := by
  unfold SU.generate_signatures
  refine ((List.perm_insertionSort _ _).nodup_iff).mpr ?_
  refine List.Nodup.map ?_ ?_
  · intro a b hab
    have hl : a.length = b.length := by
      have := congrArg List.length hab
      simpa using this
    exact (List.append_inj hab hl).1
  · have hinj : ∀ lim : ℕ, Function.Injective (fun t : ℕ => ((lim : ℤ) - (t : ℤ))) := by
      intro lim a b hab
      simp only at hab
      omega
    exact cwr_nodup (List.Nodup.map (hinj _) (List.nodup_range _))

/-- C6, SU half: every generated SU signature has length `n = rank + 1`, not
`rank` (the trailing zero is appended after the rank-length tuple). -/
theorem su_generate_length {n : ℕ} (order : ℕ) (hn : 1 ≤ n) :
    ∀ sig ∈ SU.generate_signatures n order, sig.length = n := by
  intro sig hsig
  unfold SU.generate_signatures at hsig
  have hsig' := (List.perm_insertionSort _ _).mem_iff.mp hsig
  obtain ⟨t, ht, rfl⟩ := List.mem_map.mp hsig'
  have := cwr_mem_length ht
  simp [this]
  omega

/-- C6 counterexample.  The SU(3) instance has `rank = n - 1 = 2`, but the
generated signature `(5, 5, 0)` has length 3: `SU.generate_signatures` appends
a trailing zero to every rank-length tuple, so every SU signature has length
`rank + 1 = n`, contradicting the claim that signature length equals the
rank for every SO/SU instance. -/
theorem C6_counterexample_su_length :
    [5, 5, 0] ∈ SU.generate_signatures 3 1 ∧
      ¬ ([5, 5, 0] : List ℤ).length = 3 - 1 := by
  constructor
  · decide
  · decide

/-- C6 as amended.  For every SO(n) instance each generated signature has
length `rank = n / 2` and the list has no duplicates; for every SU(n)
instance (`n ≥ 1`) each generated signature has length `n = rank + 1` (the
trailing zero included) and the list has no duplicates. -/
theorem C6_amended_signature_shape :
    (∀ n order : ℕ,
      (∀ sig ∈ SO.generate_signatures n order, sig.length = n / 2) ∧
      (SO.generate_signatures n order).Nodup) ∧
    (∀ n order : ℕ, 1 ≤ n →
      (∀ sig ∈ SU.generate_signatures n order, sig.length = n) ∧
      (SU.generate_signatures n order).Nodup) :=
  ⟨fun n order => ⟨so_generate_length n order, so_generate_nodup n order⟩,
    fun _ order hn => ⟨su_generate_length order hn, su_generate_nodup _ order⟩⟩

/-- C6 witness: the SU half applied to the concrete instance SU(3). -/
theorem C6_amended_witness :
    (∀ sig ∈ SU.generate_signatures 3 1, sig.length = 3) ∧
      (SU.generate_signatures 3 1).Nodup :=
  C6_amended_signature_shape.2 3 1 (by norm_num)
